import Mathlib

/-!
Verification of the Scanner library (src/lib.rs): a token-scanning layer
over a buffered byte stream.  The buffered stream is modelled as the list
of bytes currently readable (`fill_buf` exposes the whole list, `consume n`
drops the first `n` bytes).  The regex engine is the out-of-scope
collaborator of the design: a delimiter is modelled by its observable
interface, a function returning the leftmost match of the pattern in a
byte string as `some (start, end)` byte offsets, or `none`.
-/

/-- Bytes of an ASCII string; every concrete input used in this development
is ASCII, where each char is one byte equal to its code point. -/
def asciiBytes (s : String) : List Nat :=
  s.toList.map (fun c => c.toNat)

/-- UTF-8 continuation byte (`10xxxxxx`). -/
def isCont (b : Nat) : Bool := 128 ≤ b && b ≤ 191

/-- UTF-8 validity of a byte list, as checked by `str::from_utf8` in
`Scanner::next` (src/lib.rs line 63): shortest-form encodings only,
surrogates and code points above U+10FFFF rejected. -/
def isUtf8 : List Nat → Bool
  | [] => true
  | b :: rest =>
    if b ≤ 127 then isUtf8 rest
    else if 194 ≤ b && b ≤ 223 then
      match rest with
      | c1 :: r => isCont c1 && isUtf8 r
      | [] => false
    else if b = 224 then
      match rest with
      | c1 :: c2 :: r => (160 ≤ c1 && c1 ≤ 191) && isCont c2 && isUtf8 r
      | _ => false
    else if 225 ≤ b && b ≤ 236 then
      match rest with
      | c1 :: c2 :: r => isCont c1 && isCont c2 && isUtf8 r
      | _ => false
    else if b = 237 then
      match rest with
      | c1 :: c2 :: r => (128 ≤ c1 && c1 ≤ 159) && isCont c2 && isUtf8 r
      | _ => false
    else if 238 ≤ b && b ≤ 239 then
      match rest with
      | c1 :: c2 :: r => isCont c1 && isCont c2 && isUtf8 r
      | _ => false
    else if b = 240 then
      match rest with
      | c1 :: c2 :: c3 :: r =>
        (144 ≤ c1 && c1 ≤ 191) && isCont c2 && isCont c3 && isUtf8 r
      | _ => false
    else if 241 ≤ b && b ≤ 243 then
      match rest with
      | c1 :: c2 :: c3 :: r => isCont c1 && isCont c2 && isCont c3 && isUtf8 r
      | _ => false
    else if b = 244 then
      match rest with
      | c1 :: c2 :: c3 :: r =>
        (128 ≤ c1 && c1 ≤ 143) && isCont c2 && isCont c3 && isUtf8 r
      | _ => false
    else false

/-- The delimiter, through the interface `Scanner::next` uses: `Regex::find`
returns the leftmost match as byte offsets `some (start, end)`, or `none`. -/
structure Delim where
  find : List Nat → Option (Nat × Nat)

/-- Every regex match lies inside the searched string with `start ≤ end`. -/
def Delim.WF (d : Delim) : Prop :=
  ∀ input s e, d.find input = some (s, e) → s ≤ e ∧ e ≤ input.length

/-- Every match of the pattern is nonempty (true of the default `\s+`). -/
def Delim.NonEmpty (d : Delim) : Prop :=
  ∀ input s e, d.find input = some (s, e) → s < e

/-- ASCII bytes matched by the regex class `\s`. -/
def isWs (b : Nat) : Bool :=
  b = 32 || b = 9 || b = 10 || b = 13 || b = 11 || b = 12

/-- Length of the leading whitespace run of a byte list. -/
def wsRun : List Nat → Nat
  | [] => 0
  | b :: rest => if isWs b then wsRun rest + 1 else 0

/-- Leftmost match of `\s+`: the first whitespace byte starts the match and
the match extends greedily over the maximal whitespace run. -/
def wsFind : List Nat → Option (Nat × Nat)
  | [] => none
  | b :: rest =>
    if isWs b then some (0, wsRun (b :: rest))
    else (wsFind rest).map (fun p => (p.1 + 1, p.2 + 1))

/-- The default delimiter `\s+` installed by `Scanner::new` (src/lib.rs
line 45), restricted to the ASCII inputs used here. -/
def wsDelim : Delim := ⟨wsFind⟩

/-- The pattern `\s*`: it matches at every position, so its leftmost match
always starts at offset 0 and covers the leading whitespace run (possibly
empty).  Used to show the nonempty-match precondition of the skip loop. -/
def starDelim : Delim := ⟨fun input => some (0, wsRun input)⟩

/-- Leftmost occurrence of the literal byte string `pat`, as matched by the
regex compiled from `regex::escape(pat)` in `set_delim_str` (src/lib.rs
lines 26-32): escaping neutralizes every metacharacter, so the compiled
pattern matches exactly the literal substring `pat`. -/
def litFind (pat : List Nat) : List Nat → Option (Nat × Nat)
  | [] => if pat.isPrefixOf ([] : List Nat) then some (0, pat.length) else none
  | b :: rest =>
    if pat.isPrefixOf (b :: rest) then some (0, pat.length)
    else (litFind pat rest).map (fun p => (p.1 + 1, p.2 + 1))

/-- The delimiter installed by `set_delim_str`. -/
def litDelim (pat : List Nat) : Delim := ⟨litFind pat⟩

/-- The leading-delimiter skip loop of `Scanner::next` (src/lib.rs lines
71-77): while the leftmost match starts at offset 0, add its end offset to
the consume counter and slide the window past it.  The Rust loop is
unbounded; `fuel` makes the model total, with `none` meaning the loop does
not terminate.  A productive iteration shortens the window, so any run of
the Rust loop that terminates does so within `input.length` iterations and
is reproduced exactly by fuel `input.length + 1`. -/
def skipLoop (d : Delim) : Nat → List Nat → Nat → Option (Nat × List Nat)
  | 0, _, _ => none
  | fuel + 1, input, counter =>
    match d.find input with
    | some (s, e) =>
      if 0 < s then some (counter, input)
      else skipLoop d fuel (input.drop e) (counter + e)
    | none => some (counter, input)

/-- Body of `Scanner::next` (src/lib.rs lines 55-99) on a buffer: returns
`some (token?, bytesConsumed)`, or `none` when the skip loop diverges.
Mirrors the source: invalid UTF-8 returns `None` before consuming anything;
otherwise skip leading delimiters, find the leftmost match in the remaining
window, cut the token before it (or take the whole window), consume
counter + token length, and map an empty token to `None`. -/
def nextRun (d : Delim) (buf : List Nat) : Option (Option (List Nat) × Nat) :=
  if isUtf8 buf then
    match skipLoop d (buf.length + 1) buf 0 with
    | none => none
    | some (counter, input) =>
      match d.find input with
      | some (s, _e) =>
        let res := input.take s
        some (if 0 < res.length then some res else none, counter + s)
      | none =>
        some (if 0 < input.length then some input else none, counter + input.length)
  else some (none, 0)

/-- The Scanner (src/lib.rs lines 13-16): a buffered stream and a compiled
delimiter.  The `radix` field is modelled from the spec (§3): the radix
configuration (`get_radix`/`set_radix`, default 10) is absent from
src/lib.rs although src/tests.rs exercises it. -/
structure Scanner where
  stream : List Nat
  delim : Delim
  radix : Nat

/-- `Scanner::new`: default delimiter `\s+`; default radix 10 (the radix
default is modelled from the spec, §3). -/
def Scanner.new (stream : List Nat) : Scanner :=
  { stream := stream, delim := wsDelim, radix := 10 }

/-- `Scanner::next`: run the body on the buffered bytes, then `consume` the
computed count.  `none` models divergence of the skip loop. -/
def Scanner.next (sc : Scanner) : Option (Option (List Nat) × Scanner) :=
  match nextRun sc.delim sc.stream with
  | none => none
  | some (res, n) => some (res, { sc with stream := sc.stream.drop n })

/-- `set_delim_str` (src/lib.rs lines 26-32): installs the literal matcher
for `pat` (the semantics of compiling `regex::escape(pat)`). -/
def Scanner.set_delim_str (pat : List Nat) (sc : Scanner) : Scanner :=
  { sc with delim := litDelim pat }

/-- `BufRead::read_line` splitting: the first component is everything up to
and including the first `\n` (byte 10), or the whole stream when it has no
newline; the second component is the rest of the stream. -/
def splitLine (buf : List Nat) : List Nat × List Nat :=
  match buf with
  | [] => ([], [])
  | b :: rest =>
    if b = 10 then ([b], rest)
    else
      let p := splitLine rest
      (b :: p.1, p.2)

/-- `Scanner::next_line` (src/lib.rs lines 103-121): read through the next
newline, then pop the last char; if it was `\n` drop it, otherwise put it
back; an empty read (`pop` returns `None`) yields `None`. -/
def Scanner.next_line (sc : Scanner) : Option (List Nat) × Scanner :=
  let p := splitLine sc.stream
  (match p.1.getLast? with
    | none => none
    | some b => if b = 10 then some p.1.dropLast else some p.1,
   { sc with stream := p.2 })

/-- The comma-stripping loop of `next_i32` (src/lib.rs lines 129-131): the
`rfind`/`remove` loop deletes commas right to left until none remains, so
the result keeps every non-comma byte in order. -/
def stripCommas : List Nat → List Nat
  | [] => []
  | b :: rest => if b = 44 then stripCommas rest else b :: stripCommas rest

/-- Digit value of a byte as Rust integer parsing accepts it:
`0-9`, `a-z`, `A-Z`. -/
def digitVal (b : Nat) : Option Nat :=
  if 48 ≤ b && b ≤ 57 then some (b - 48)
  else if 97 ≤ b && b ≤ 122 then some (b - 87)
  else if 65 ≤ b && b ≤ 90 then some (b - 55)
  else none

/-- Accumulate digits left to right in the given radix; fails on a byte
that is not a digit below the radix. -/
def parseDigitsAux (radix : Nat) : List Nat → Nat → Option Nat
  | [], acc => some acc
  | b :: rest, acc =>
    match digitVal b with
    | some d => if d < radix then parseDigitsAux radix rest (acc * radix + d) else none
    | none => none

/-- Parse a nonempty digit string in the given radix. -/
def parseNat (radix : Nat) (l : List Nat) : Option Nat :=
  if l = [] then none else parseDigitsAux radix l 0

/-- Rust `i32::from_str_radix` semantics: optional `+`/`-` sign, a nonempty
digit string in the radix, and the value must fit the 32-bit signed range
(Rust checks overflow step by step; the result is the same as this final
range check). -/
def parseI32Radix (radix : Nat) (l : List Nat) : Option Int :=
  match l with
  | 43 :: rest =>
    (parseNat radix rest).bind fun n =>
      if n ≤ 2147483647 then some (n : Int) else none
  | 45 :: rest =>
    (parseNat radix rest).bind fun n =>
      if n ≤ 2147483648 then some (-(n : Int)) else none
  | _ =>
    (parseNat radix l).bind fun n =>
      if n ≤ 2147483647 then some (n : Int) else none

/-- `Scanner::next_i32` (src/lib.rs lines 125-140): take the next token
(consuming it even if parsing fails), strip commas, parse as base-10 i32. -/
def Scanner.next_i32 (sc : Scanner) : Option (Option Int × Scanner) :=
  match Scanner.next sc with
  | none => none
  | some (none, sc1) => some (none, sc1)
  | some (some tok, sc1) => some (parseI32Radix 10 (stripCommas tok), sc1)

/-- Modelled from the spec: `get_radix` is absent from src/lib.rs (only
src/tests.rs calls it).  Spec §3: returns the scanner's radix. -/
def Scanner.get_radix (sc : Scanner) : Nat := sc.radix

/-- Modelled from the spec: `set_radix` is absent from src/lib.rs (only
src/tests.rs calls it).  Spec §3/§4.1: setting a radix outside [2, 36] is
silently ignored and the previous value is retained. -/
def Scanner.set_radix (r : Nat) (sc : Scanner) : Scanner :=
  if 2 ≤ r ∧ r ≤ 36 then { sc with radix := r } else sc

/-- Modelled from the spec: `next_int_radix` is absent from src/lib.rs
(only src/tests.rs calls it).  Spec §4.4: strip commas from the token and
parse it as a signed 32-bit integer in the given radix; absent on a radix
outside [2, 36].  The radix-validity check precedes the call to `next`, as
the src test `next_int_custom_radix` asserts ("invalid radix should return
None and not consume `Scanner.next()`"). -/
def Scanner.next_int_radix (r : Nat) (sc : Scanner) : Option (Option Int × Scanner) :=
  if r < 2 ∨ 36 < r then some (none, sc)
  else
    match Scanner.next sc with
    | none => none
    | some (none, sc1) => some (none, sc1)
    | some (some tok, sc1) => some (parseI32Radix r (stripCommas tok), sc1)

/-- Declarative characterization of the skip loop: `Skips d input k rest`
holds when repeatedly removing a delimiter match that starts at offset 0
turns `input` into `rest` and the removed lengths sum to `k`, with no
match of `d` starting at offset 0 of `rest`. -/
inductive Skips (d : Delim) : List Nat → Nat → List Nat → Prop
  | stop (input : List Nat) (h : ∀ e, d.find input ≠ some (0, e)) :
      Skips d input 0 input
  | step (input : List Nat) (e k : Nat) (rest : List Nat)
      (h : d.find input = some (0, e))
      (hr : Skips d (input.drop e) k rest) :
      Skips d input (e + k) rest

theorem wsRun_le (l : List Nat) : wsRun l ≤ l.length := by
  induction l with
  | nil => simp [wsRun]
  | cons b rest ih =>
    simp only [wsRun, List.length_cons]
    split
    · omega
    · omega

theorem wsFind_wf : ∀ l s e, wsFind l = some (s, e) → s < e ∧ e ≤ l.length := by
  intro l
  induction l with
  | nil => intro s e h; simp [wsFind] at h
  | cons b rest ih =>
    intro s e h
    simp only [wsFind] at h
    split at h
    · rw [Option.some.injEq, Prod.mk.injEq] at h
      obtain ⟨hs, he⟩ := h
      subst hs
      subst he
      refine ⟨?_, wsRun_le _⟩
      simp only [wsRun]
      split
      · omega
      · simp_all [wsFind]
    · rcases Option.map_eq_some'.mp h with ⟨p, hp, hpe⟩
      rw [Prod.mk.injEq] at hpe
      obtain ⟨hs, he⟩ := hpe
      have := ih p.1 p.2 (by rw [hp])
      simp only [List.length_cons]
      omega

theorem wsDelim_wf : Delim.WF wsDelim := by
  intro input s e h
  have := wsFind_wf input s e h
  exact ⟨Nat.le_of_lt this.1, this.2⟩

theorem wsDelim_nonempty : Delim.NonEmpty wsDelim :=
  fun input s e h => (wsFind_wf input s e h).1

theorem skipLoop_sound (d : Delim) (hw : Delim.WF d) (hne : Delim.NonEmpty d) :
    ∀ fuel input c, input.length < fuel →
      ∃ k rest, skipLoop d fuel input c = some (c + k, rest) ∧ Skips d input k rest := by
  intro fuel
  induction fuel with
  | zero => intro input c h; omega
  | succ n ih =>
    intro input c h
    match hf : d.find input with
    | none =>
      refine ⟨0, input, ?_, Skips.stop input (fun e he => by rw [hf] at he; exact Option.noConfusion he)⟩
      simp [skipLoop, hf]
    | some (s, e) =>
      by_cases hs : 0 < s
      · refine ⟨0, input, ?_, Skips.stop input (fun e0 he0 => ?_)⟩
        · simp [skipLoop, hf, hs]
        · rw [hf, Option.some.injEq, Prod.mk.injEq] at he0
          omega
      · have hs0 : s = 0 := by omega
        subst hs0
        have hlt : 0 < e := hne input 0 e hf
        have hle : e ≤ input.length := (hw input 0 e hf).2
        have hdrop : (input.drop e).length < n := by
          rw [List.length_drop]
          omega
        obtain ⟨k, rest, heq, hsk⟩ := ih (input.drop e) (c + e) hdrop
        refine ⟨e + k, rest, ?_, Skips.step input e k rest hf hsk⟩
        simp only [skipLoop, hf]
        rw [if_neg (by omega), heq, Nat.add_assoc]

theorem Skips.find_ne {d : Delim} {input : List Nat} {k : Nat} {rest : List Nat}
    (h : Skips d input k rest) : ∀ e, d.find rest ≠ some (0, e) := by
  induction h with
  | stop input h => exact h
  | step input e k rest h hr ih => exact ih

theorem Scanner.next_eq_of_run {sc : Scanner} {res : Option (List Nat)} {n : Nat}
    (h : nextRun sc.delim sc.stream = some (res, n)) :
    Scanner.next sc = some (res, { sc with stream := sc.stream.drop n }) := by
  unfold Scanner.next
  rw [h]

/-- Claim C1: on a valid UTF-8 buffer, `next` first skips the leading
delimiter matches starting at offset 0 (summing their lengths into the
discard count `k`), then returns the text strictly before the leftmost
delimiter match of the remaining window (the whole window when there is no
match, absent when that window is empty), and consumes exactly
`k + token length` bytes from the stream. -/
theorem next_skips_then_splits (d : Delim) (r : Nat) (buf : List Nat)
    (hw : Delim.WF d) (hne : Delim.NonEmpty d) (hu : isUtf8 buf = true) :
    ∃ k rest, Skips d buf k rest ∧
      ((∃ s e, d.find rest = some (s, e) ∧
          Scanner.next ⟨buf, d, r⟩ =
            some (some (rest.take s), ⟨buf.drop (k + s), d, r⟩)) ∨
       (d.find rest = none ∧
          Scanner.next ⟨buf, d, r⟩ =
            some ((if rest = [] then none else some rest),
                  ⟨buf.drop (k + rest.length), d, r⟩))) := by
  obtain ⟨k, rest, heq, hsk⟩ :=
    skipLoop_sound d hw hne (buf.length + 1) buf 0 (Nat.lt_succ_self _)
  rw [Nat.zero_add] at heq
  refine ⟨k, rest, hsk, ?_⟩
  cases hf : d.find rest with
  | some p =>
    obtain ⟨s, e⟩ := p
    left
    have hs : 0 < s := by
      rcases Nat.eq_zero_or_pos s with h0 | h0
      · subst h0
        exact absurd hf (hsk.find_ne e)
      · exact h0
    have hsle : s ≤ rest.length := by
      have := hw rest s e hf
      omega
    refine ⟨s, e, rfl, ?_⟩
    have hlen : (rest.take s).length = s := by
      rw [List.length_take]
      omega
    have hrun : nextRun d buf = some (some (rest.take s), k + s) := by
      unfold nextRun
      rw [hu]
      simp only [if_true, heq, hf, hlen, hs, if_pos]
    exact Scanner.next_eq_of_run hrun
  | none =>
    right
    refine ⟨rfl, ?_⟩
    have hrun : nextRun d buf =
        some ((if rest = [] then none else some rest), k + rest.length) := by
      unfold nextRun
      rw [hu]
      simp only [if_true, heq, hf]
      cases rest with
      | nil => simp
      | cons b t => simp
    exact Scanner.next_eq_of_run hrun

/-- Witness for C1 at the default delimiter and the buffer `" ab"`. -/
theorem next_skips_then_splits_at_input :
    ∃ k rest, Skips wsDelim (asciiBytes " ab") k rest ∧
      ((∃ s e, wsDelim.find rest = some (s, e) ∧
          Scanner.next ⟨asciiBytes " ab", wsDelim, 10⟩ =
            some (some (rest.take s), ⟨(asciiBytes " ab").drop (k + s), wsDelim, 10⟩)) ∨
       (wsDelim.find rest = none ∧
          Scanner.next ⟨asciiBytes " ab", wsDelim, 10⟩ =
            some ((if rest = [] then none else some rest),
                  ⟨(asciiBytes " ab").drop (k + rest.length), wsDelim, 10⟩))) :=
  next_skips_then_splits wsDelim 10 (asciiBytes " ab") wsDelim_wf wsDelim_nonempty rfl

/-- Claim C4: when the buffered input is not valid UTF-8, `next` returns
absent and consumes nothing, so the scanner (and hence the buffered bytes
an immediately repeated call observes) is unchanged. -/
theorem next_invalid_utf8_no_consume (sc : Scanner) (h : isUtf8 sc.stream = false) :
    Scanner.next sc = some (none, sc) := by
  unfold Scanner.next nextRun
  rw [h]
  simp

/-- Witness for C4 at the non-UTF-8 buffer `[0xFF]`. -/
theorem next_invalid_utf8_no_consume_at_input :
    Scanner.next ⟨[255], wsDelim, 10⟩ = some (none, ⟨[255], wsDelim, 10⟩) :=
  next_invalid_utf8_no_consume ⟨[255], wsDelim, 10⟩ rfl

theorem guard_nonempty {x res : List Nat}
    (h : (if 0 < x.length then some x else none) = some res) : res ≠ [] := by
  split at h
  next hx =>
    rw [Option.some.injEq] at h
    subst h
    intro hc
    subst hc
    simp at hx
  next => exact Option.noConfusion h

/-- Claim C6: `next` never returns an empty token, and an all-delimiter
input (here `" \t "` under the default `\s+`) yields absent. -/
theorem next_token_nonempty :
    (∀ (d : Delim) (buf res : List Nat) (n : Nat),
        nextRun d buf = some (some res, n) → res ≠ []) ∧
    nextRun wsDelim (asciiBytes " \t ") = some (none, 3) := by
  constructor
  · intro d buf res n h
    unfold nextRun at h
    split at h
    · split at h
      · exact Option.noConfusion h
      · split at h
        · rw [Option.some.injEq, Prod.mk.injEq] at h
          exact guard_nonempty h.1
        · rw [Option.some.injEq, Prod.mk.injEq] at h
          exact guard_nonempty h.1
    · rw [Option.some.injEq, Prod.mk.injEq] at h
      exact Option.noConfusion h.1
  · rfl

/-- Witness for C6: applying the theorem to the token produced on `"ab"`. -/
theorem next_token_nonempty_at_input : asciiBytes "ab" ≠ [] :=
  next_token_nonempty.1 wsDelim (asciiBytes "ab") (asciiBytes "ab") 2 rfl

/-- Claim C5: on an input with no delimiter match, the first `next` returns
the entire input and consumes it all, and the second `next` returns
absent. -/
theorem next_whole_input_once (d : Delim) (r : Nat) (buf : List Nat)
    (hw : Delim.WF d) (hne : Delim.NonEmpty d) (hu : isUtf8 buf = true)
    (hnf : d.find buf = none) (hb : buf ≠ []) :
    Scanner.next ⟨buf, d, r⟩ = some (some buf, ⟨[], d, r⟩) ∧
    Scanner.next ⟨[], d, r⟩ = some (none, ⟨[], d, r⟩) := by
  have h0 : d.find [] = none := by
    cases hf : d.find [] with
    | none => rfl
    | some p =>
      obtain ⟨s, e⟩ := p
      have h1 := hne [] s e hf
      have h2 := (hw [] s e hf).2
      simp only [List.length_nil] at h2
      omega
  have hpos : 0 < buf.length := List.length_pos.mpr hb
  constructor
  · have hskip : skipLoop d (buf.length + 1) buf 0 = some (0, buf) := by
      rw [skipLoop, hnf]
    have hrun : nextRun d buf = some (some buf, 0 + buf.length) := by
      unfold nextRun
      rw [hu]
      simp only [if_true, hskip, hnf]
      rw [if_pos hpos]
    have := @Scanner.next_eq_of_run ⟨buf, d, r⟩ (some buf) (0 + buf.length) hrun
    simpa [Nat.zero_add, List.drop_length] using this
  · have hskip : skipLoop d (0 + 1) ([] : List Nat) 0 = some (0, []) := by
      rw [skipLoop, h0]
    have hrun : nextRun d [] = some (none, 0 + 0) := by
      unfold nextRun
      have hu0 : isUtf8 [] = true := rfl
      rw [hu0]
      simp only [if_true, List.length_nil, hskip, h0]
      simp
    have := @Scanner.next_eq_of_run ⟨[], d, r⟩ none (0 + 0) hrun
    simpa using this

/-- Witness for C5 at the default delimiter and the input `"ab"`. -/
theorem next_whole_input_once_at_input :
    Scanner.next ⟨asciiBytes "ab", wsDelim, 10⟩ =
      some (some (asciiBytes "ab"), ⟨[], wsDelim, 10⟩) ∧
    Scanner.next ⟨[], wsDelim, 10⟩ = some (none, ⟨[], wsDelim, 10⟩) :=
  next_whole_input_once wsDelim 10 (asciiBytes "ab") wsDelim_wf wsDelim_nonempty
    rfl rfl (by decide)

/-- Claim C10: `next` terminates on every valid UTF-8 buffer provided every
delimiter match is nonempty; the precondition is required, since the
`\s*`-style delimiter (which matches the empty string at offset 0) makes
the skip loop diverge already on the buffer `"a"`. -/
theorem next_terminates_nonempty_matches :
    (∀ (d : Delim) (buf : List Nat), Delim.WF d → Delim.NonEmpty d →
        isUtf8 buf = true → nextRun d buf ≠ none) ∧
    nextRun starDelim (asciiBytes "a") = none := by
  constructor
  · intro d buf hw hne hu
    obtain ⟨k, rest, heq, _⟩ :=
      skipLoop_sound d hw hne (buf.length + 1) buf 0 (Nat.lt_succ_self _)
    rw [Nat.zero_add] at heq
    unfold nextRun
    rw [hu]
    simp only [if_true, heq]
    cases hf : d.find rest <;> simp
  · rfl

/-- Witness for C10 at the default delimiter and the buffer `"a"`. -/
theorem next_terminates_nonempty_matches_at_input :
    nextRun wsDelim (asciiBytes "a") ≠ none :=
  next_terminates_nonempty_matches.1 wsDelim (asciiBytes "a")
    wsDelim_wf wsDelim_nonempty rfl

theorem splitLine_no_newline : ∀ l : List Nat, 10 ∉ l → splitLine l = (l, []) := by
  intro l h
  induction l with
  | nil => rfl
  | cons b rest ih =>
    have hb : ¬ b = 10 := fun hc => h (by simp [hc])
    have hr : 10 ∉ rest := fun hc => h (List.mem_cons_of_mem _ hc)
    simp [splitLine, hb, ih hr]

theorem splitLine_newline : ∀ l rest : List Nat, 10 ∉ l →
    splitLine (l ++ 10 :: rest) = (l ++ [10], rest) := by
  intro l rest h
  induction l with
  | nil => simp [splitLine]
  | cons b t ih =>
    have hb : ¬ b = 10 := fun hc => h (by simp [hc])
    have ht : 10 ∉ t := fun hc => h (List.mem_cons_of_mem _ hc)
    simp [splitLine, hb, ih ht]

theorem splitLine_fst_ne_nil : ∀ l : List Nat, l ≠ [] → (splitLine l).1 ≠ [] := by
  intro l h
  cases l with
  | nil => exact absurd rfl h
  | cons b rest =>
    simp only [splitLine]
    split <;> simp

theorem getLastQ_concat (l : List Nat) (b : Nat) : (l ++ [b]).getLast? = some b := by
  induction l with
  | nil => rfl
  | cons a t ih =>
    cases t with
    | nil => rfl
    | cons c u => simpa [List.getLast?_cons_cons] using ih

theorem dropLast_concat_self (l : List Nat) (b : Nat) : (l ++ [b]).dropLast = l := by
  induction l with
  | nil => rfl
  | cons a t ih =>
    cases t with
    | nil => rfl
    | cons c u => simpa [List.dropLast_cons₂] using ih

theorem getLastQ_mem : ∀ (l : List Nat) (b : Nat), l.getLast? = some b → b ∈ l := by
  intro l
  induction l with
  | nil => intro b h; exact Option.noConfusion h
  | cons a t ih =>
    intro b h
    cases t with
    | nil =>
      rw [List.getLast?_singleton, Option.some.injEq] at h
      simp [h]
    | cons c u =>
      rw [List.getLast?_cons_cons] at h
      exact List.mem_cons_of_mem _ (ih b h)

/-- Claim C7: `next_line` returns the next line up to and excluding exactly
one trailing newline; a final line without a newline is returned in full;
leading delimiter bytes are preserved verbatim (the returned line is
exactly the text before the newline, unskipped); absent exactly when the
stream yields zero bytes. -/
theorem next_line_spec (sc : Scanner) :
    (∀ l rest : List Nat, sc.stream = l ++ 10 :: rest → 10 ∉ l →
        Scanner.next_line sc = (some l, { sc with stream := rest })) ∧
    (10 ∉ sc.stream → sc.stream ≠ [] →
        Scanner.next_line sc = (some sc.stream, { sc with stream := [] })) ∧
    (sc.stream = [] → Scanner.next_line sc = (none, sc)) ∧
    (sc.stream ≠ [] → ∃ l, (Scanner.next_line sc).1 = some l) := by
  refine ⟨?_, ?_, ?_, ?_⟩
  · intro l rest hst hnl
    unfold Scanner.next_line
    rw [hst, splitLine_newline l rest hnl]
    simp [getLastQ_concat, dropLast_concat_self]
  · intro hnl hne
    unfold Scanner.next_line
    rw [splitLine_no_newline sc.stream hnl]
    cases hg : sc.stream.getLast? with
    | none =>
      exact absurd (List.getLast?_eq_none_iff.mp hg) hne
    | some b =>
      have hb : ¬ b = 10 := fun hc => by
        subst hc
        exact hnl (getLastQ_mem sc.stream 10 hg)
      simp [hg, hb]
  · intro h
    unfold Scanner.next_line
    rw [h]
    simp [splitLine]
    rw [← h]
  · intro h
    unfold Scanner.next_line
    cases hg : (splitLine sc.stream).1.getLast? with
    | none =>
      exact absurd (List.getLast?_eq_none_iff.mp hg) (splitLine_fst_ne_nil sc.stream h)
    | some b =>
      by_cases hb : b = 10 <;> simp [hg, hb]

/-- Witness for C7 on the stream `"ab\ncd"`. -/
theorem next_line_spec_at_input :
    Scanner.next_line ⟨asciiBytes "ab\ncd", wsDelim, 10⟩ =
      (some (asciiBytes "ab"), ⟨asciiBytes "cd", wsDelim, 10⟩) :=
  (next_line_spec ⟨asciiBytes "ab\ncd", wsDelim, 10⟩).1
    (asciiBytes "ab") (asciiBytes "cd") rfl (by decide)

/-- Claim C8: `next_i32` strips every comma before parsing:
`"2,147,483,647"` parses to 2147483647, while `"2147483648"` and
`"-2147483649"` yield absent by 32-bit overflow/underflow; in each case the
token is consumed (the stream is left empty). -/
theorem next_i32_commas_and_overflow :
    Scanner.next_i32 (Scanner.new (asciiBytes "2,147,483,647")) =
      some (some 2147483647, ⟨[], wsDelim, 10⟩) ∧
    Scanner.next_i32 (Scanner.new (asciiBytes "2147483648")) =
      some (none, ⟨[], wsDelim, 10⟩) ∧
    Scanner.next_i32 (Scanner.new (asciiBytes "-2147483649")) =
      some (none, ⟨[], wsDelim, 10⟩) :=
  ⟨rfl, rfl, rfl⟩

/-- Claim C9: after `set_delim_str "[a-z]+"`, the delimiter matches only the
literal substring: on `"foo[a-z]+bar"` successive `next` calls return
`"foo"` and then `"bar"`, never treating the text as a character class. -/
theorem set_delim_str_literal_split :
    ∃ sc1 sc2,
      Scanner.next (Scanner.set_delim_str (asciiBytes "[a-z]+")
          (Scanner.new (asciiBytes "foo[a-z]+bar"))) =
        some (some (asciiBytes "foo"), sc1) ∧
      Scanner.next sc1 = some (some (asciiBytes "bar"), sc2) :=
  ⟨⟨asciiBytes "[a-z]+bar", litDelim (asciiBytes "[a-z]+"), 10⟩,
   ⟨[], litDelim (asciiBytes "[a-z]+"), 10⟩, rfl, rfl⟩

/-- Claim C3: the radix defaults to 10, setting it outside [2, 36] is a
silent no-op, and setting a value inside [2, 36] (such as 36) updates it. -/
theorem radix_clamped (sc : Scanner) (r : Nat) (buf : List Nat) :
    Scanner.get_radix (Scanner.new buf) = 10 ∧
    ((r < 2 ∨ 36 < r) → Scanner.set_radix r sc = sc) ∧
    (2 ≤ r → r ≤ 36 → Scanner.get_radix (Scanner.set_radix r sc) = r) := by
  refine ⟨rfl, ?_, ?_⟩
  · intro h
    unfold Scanner.set_radix
    rw [if_neg (by omega)]
  · intro h2 h36
    unfold Scanner.set_radix Scanner.get_radix
    rw [if_pos ⟨h2, h36⟩]

/-- Witness for C3: setting 37 is a no-op, setting 36 updates to 36. -/
theorem radix_clamped_at_input :
    Scanner.set_radix 37 (Scanner.new []) = Scanner.new [] ∧
    Scanner.get_radix (Scanner.set_radix 36 (Scanner.new [])) = 36 :=
  ⟨(radix_clamped (Scanner.new []) 37 []).2.1 (Or.inr (by omega)),
   (radix_clamped (Scanner.new []) 36 []).2.2 (by omega) (by omega)⟩

/-- Counterexample to claim C2 as stated: on the stream `"11010"` (the
input of the src test `next_int_custom_radix`), `next_int_radix 1` returns
absent with the scanner unchanged, and a following `next_int_radix 2` DOES
see the very same token `"11010"` again, parsing it to 26 — so an invalid
radix does not consume the token. -/
theorem next_int_radix_invalid_radix_not_consuming :
    Scanner.next_int_radix 1 (Scanner.new (asciiBytes "11010")) =
      some (none, Scanner.new (asciiBytes "11010")) ∧
    Scanner.next_int_radix 2 (Scanner.new (asciiBytes "11010")) =
      some (some 26, ⟨[], wsDelim, 10⟩) :=
  ⟨rfl, rfl⟩

/-- Claim C2 (amended): a failed numeric read consumes the token only when
the radix is valid: with a radix outside [2, 36] the read returns absent
without consuming anything (the same token remains readable), while with a
radix in [2, 36] the token returned by `next` is consumed whether or not it
parses (invalid digits or overflow merely make the value absent). -/
theorem next_int_radix_consumption (sc : Scanner) (r : Nat) :
    ((r < 2 ∨ 36 < r) → Scanner.next_int_radix r sc = some (none, sc)) ∧
    (2 ≤ r → r ≤ 36 → ∀ tok sc1, Scanner.next sc = some (some tok, sc1) →
      ∃ v, Scanner.next_int_radix r sc = some (v, sc1)) := by
  constructor
  · intro h
    unfold Scanner.next_int_radix
    rw [if_pos h]
  · intro h2 h36 tok sc1 hn
    unfold Scanner.next_int_radix
    rw [if_neg (by omega), hn]
    exact ⟨_, rfl⟩

/-- Witness for C2 (amended): radix 1 leaves the stream `"7"` untouched;
radix 10 on the unparsable token `"abc"` still consumes it. -/
theorem next_int_radix_consumption_at_input :
    Scanner.next_int_radix 1 (Scanner.new (asciiBytes "7")) =
      some (none, Scanner.new (asciiBytes "7")) ∧
    (∃ v, Scanner.next_int_radix 10 (Scanner.new (asciiBytes "abc")) =
      some (v, ⟨[], wsDelim, 10⟩)) :=
  ⟨(next_int_radix_consumption (Scanner.new (asciiBytes "7")) 1).1 (Or.inl (by omega)),
   (next_int_radix_consumption (Scanner.new (asciiBytes "abc")) 10).2
     (by omega) (by omega) (asciiBytes "abc") ⟨[], wsDelim, 10⟩ rfl⟩
